import Mathlib

set_option maxRecDepth 8000
set_option maxHeartbeats 1000000

/-!
Verification of the order-book mirror client (`order_book_client.py`).

The development shallowly embeds the client's data model and operations:

* `OrderBook` mirrors the Python `OrderBook` class.  The Python dicts
  `bids`/`asks` (insertion-ordered `price -> quantity` maps) are embedded as
  association lists `List (ℕ × ℕ)` whose list order is the dict's iteration
  order.  `dictSet` is Python dict assignment (replace in place when the key
  is present, append otherwise) and removal is `List.filter`.
* `sort_bids`/`sort_asks` embed the `sorted(...)` calls (a stable sort by the
  price component, descending for bids, ascending for asks).
* `process_delta` / `run_stream` embed `OrderBookClient._process_delta` and
  the websocket read loop (`async for ... if not self.running: break`).
* The decimal-string decode `int(float(s) * 10_000_000)` and the rendering
  `f"{value / 10_000_000:.7f}"` are embedded exactly, including the IEEE-754
  binary64 rounding that the Python `float` operations perform: a double is
  represented by an exact pair (numerator, denominator) of naturals and
  `roundDouble` performs round-to-nearest, ties-to-even at 53 significant
  bits, which is what CPython's correctly rounded `float(str)`, `int / int`
  true division, float multiplication, and `%.7f` formatting all guarantee.
  (Exponent-range overflow/underflow of binary64 is not modelled; every value
  reachable in this program is far inside the normal range.)
-/

namespace OrderBookClient

/-! ### IEEE-754 binary64 model over exact rational pairs -/

/-- Binary logarithm with explicit fuel, so that the kernel can evaluate it:
`log2fuel fuel n` is `⌊log₂ n⌋` for `0 < n < 2 ^ fuel`. -/
def log2fuel : ℕ → ℕ → ℕ
  | 0, _ => 0
  | fuel + 1, n => if n ≤ 1 then 0 else log2fuel fuel (n / 2) + 1

/-- Binary logarithm, adequate for naturals below `2 ^ 200`. -/
def natLog2 (n : ℕ) : ℕ := log2fuel 200 n

/-- The binade exponent of the positive rational `num / den`: the unique `e`
with `2 ^ e ≤ num / den < 2 ^ (e + 1)`. -/
def expPQ (num den : ℕ) : ℤ :=
  if den ≤ num then (natLog2 (num / den) : ℤ)
  else
    let m := natLog2 (den / num)
    if den ≤ num * 2 ^ m then -(m : ℤ) else -(m : ℤ) - 1

/-- Round the rational `A / B` to the nearest integer, ties to even. -/
def rhe (A B : ℕ) : ℕ :=
  let f := A / B
  let r := A % B
  if 2 * r < B then f
  else if B < 2 * r then f + 1
  else if f % 2 = 0 then f else f + 1

/-- Round the nonnegative rational `num / den` to the nearest IEEE-754
binary64 value (round to nearest, ties to even, 53 significant bits),
returned as an exact pair (numerator, denominator).  The exponent range of
binary64 is not modelled; all values in this development are normal. -/
def roundDouble (num den : ℕ) : ℕ × ℕ :=
  if num = 0 then (0, 1)
  else
    let e := expPQ num den
    let m := rhe (num * 2 ^ (52 - e).toNat) (den * 2 ^ (e - 52).toNat)
    (m * 2 ^ (e - 52).toNat, 2 ^ (52 - e).toNat)

/-- The rational value of an exact (numerator, denominator) pair. -/
def pqVal (p : ℕ × ℕ) : ℚ := (p.1 : ℚ) / (p.2 : ℚ)

/-! ### Decimal strings -/

/-- Value of a decimal digit character. -/
def digitChar (c : Char) : Option ℕ :=
  if 48 ≤ c.toNat ∧ c.toNat ≤ 57 then some (c.toNat - 48) else none

/-- Accumulate the value of a digit string. -/
def digitsVal : List Char → ℕ → Option ℕ
  | [], acc => some acc
  | c :: cs, acc =>
    match digitChar c with
    | some d => digitsVal cs (acc * 10 + d)
    | none => none

/-- Split a character list at the first dot; fails when two dots occur. -/
def splitDot : List Char → Option (List Char × List Char)
  | [] => some ([], [])
  | c :: cs =>
    if c = '.' then
      if cs.contains '.' then none else some ([], cs)
    else (splitDot cs).map (fun p => (c :: p.1, p.2))

/-- Parse an unsigned fixed-point decimal string (the format the snapshot
endpoint delivers) into its exact value as a pair: `"8.25"` becomes
`(825, 10 ^ 2)`.  Other `float(...)` input formats (signs, exponents,
specials) are outside the payload format and are not modelled. -/
def parseDec (s : String) : Option (ℕ × ℕ) :=
  match splitDot s.data with
  | none => none
  | some (ip, fp) =>
    if ip.isEmpty ∧ fp.isEmpty then none
    else
      match digitsVal (ip ++ fp) 0 with
      | some n => some (n, 10 ^ fp.length)
      | none => none

/-- Embedding of `int(float(s) * 10_000_000)` from `_process_snapshot`:
`float(s)` is the decimal value of `s` correctly rounded to binary64, the
product with `10_000_000` is again correctly rounded to binary64, and `int`
truncates toward zero (all values here are nonnegative, so truncation is
the floor, i.e. natural division). -/
def py_decode (s : String) : Option ℕ :=
  (parseDec s).map fun p =>
    let d := roundDouble p.1 p.2
    let q := roundDouble (d.1 * 10 ^ 7) d.2
    q.1 / q.2

/-- Embedding of `format_decimal` from `OrderBook.to_json`, i.e. of
`f"{value / 10_000_000:.7f}"`, as the exact rational value denoted by the
produced string: `value / 10_000_000` is correctly rounded binary64 true
division, and `%.7f` renders that double with exactly 7 fractional digits,
correctly rounded (ties to even).  The string's value is therefore
`rhe(d * 10^7) / 10^7` where `d` is the quotient double. -/
def format_decimal (value : ℕ) : ℚ :=
  let d := roundDouble value (10 ^ 7)
  (rhe (d.1 * 10 ^ 7) d.2 : ℚ) / 10 ^ 7

/-! ### The order book -/

/-- Embedding of the `OrderBook` class.  `bids` and `asks` are the two
insertion-ordered dicts, as association lists in iteration order. -/
structure OrderBook where
  depth : ℕ
  bids : List (ℕ × ℕ)
  asks : List (ℕ × ℕ)
  last_update_id : ℕ
deriving DecidableEq, Repr

/-- Python dict assignment `d[k] = v` on an association list: if the key is
present, its entry is updated in place; otherwise the pair is appended. -/
def dictSet (l : List (ℕ × ℕ)) (k v : ℕ) : List (ℕ × ℕ) :=
  if l.any (fun p => p.1 == k) then
    l.map (fun p => if p.1 = k then (k, v) else p)
  else l ++ [(k, v)]

/-- Embedding of `OrderBook._sort_bids`:
`sorted(self.bids.items(), key=lambda x: x[0], reverse=True)`. -/
def sort_bids (l : List (ℕ × ℕ)) : List (ℕ × ℕ) :=
  l.insertionSort (fun a b => b.1 ≤ a.1)

/-- Embedding of `OrderBook._sort_asks`:
`sorted(self.asks.items(), key=lambda x: x[0])`. -/
def sort_asks (l : List (ℕ × ℕ)) : List (ℕ × ℕ) :=
  l.insertionSort (fun a b => a.1 ≤ b.1)

/-- Embedding of `OrderBook.update_bid`: a zero quantity pops the price
(no-op when absent), otherwise the level is set and the bids re-sorted. -/
def update_bid (b : OrderBook) (price quantity : ℕ) : OrderBook :=
  if quantity = 0 then { b with bids := b.bids.filter (fun p => p.1 != price) }
  else { b with bids := sort_bids (dictSet b.bids price quantity) }

/-- Embedding of `OrderBook.update_ask`. -/
def update_ask (b : OrderBook) (price quantity : ℕ) : OrderBook :=
  if quantity = 0 then { b with asks := b.asks.filter (fun p => p.1 != price) }
  else { b with asks := sort_asks (dictSet b.asks price quantity) }

/-- Embedding of `OrderBook.get_size`. -/
def get_size (b : OrderBook) : ℕ × ℕ := (b.bids.length, b.asks.length)

/-- Embedding of the bids part of `OrderBook.to_json`: the first `depth`
levels, each rendered by `format_decimal`. -/
def to_json_bids (b : OrderBook) : List (ℚ × ℚ) :=
  (b.bids.take b.depth).map (fun p => (format_decimal p.1, format_decimal p.2))

/-- Embedding of the asks part of `OrderBook.to_json`. -/
def to_json_asks (b : OrderBook) : List (ℚ × ℚ) :=
  (b.asks.take b.depth).map (fun p => (format_decimal p.1, format_decimal p.2))

/-- Embedding of `OrderBook.to_json`: `lastUpdateId` and the two truncated,
formatted sides. -/
def to_json (b : OrderBook) : ℕ × List (ℚ × ℚ) × List (ℚ × ℚ) :=
  (b.last_update_id, to_json_bids b, to_json_asks b)

/-! ### Snapshot processing -/

/-- The decoded JSON body of the snapshot endpoint. -/
structure Snapshot where
  lastUpdateId : ℕ
  bids : List (String × String)
  asks : List (String × String)

/-- Decode one `[priceStr, qtyStr]` level via `py_decode`. -/
def decode_level (p : String × String) : Option (ℕ × ℕ) :=
  match py_decode p.1, py_decode p.2 with
  | some price, some qty => some (price, qty)
  | _, _ => none

/-- Insert decoded levels into a dict by plain assignment, as the snapshot
loop `self.order_book.bids[price] = quantity` does (note: not via
`update_bid`, so zero quantities are stored as given). -/
def store_levels (init : List (ℕ × ℕ)) (entries : List (ℕ × ℕ)) :
    List (ℕ × ℕ) :=
  entries.foldl (fun acc e => dictSet acc e.1 e.2) init

/-- Embedding of `OrderBookClient._process_snapshot`: set `last_update_id`,
clear both dicts, decode and store every level, then sort both sides.
Decoding failure raises in Python and aborts startup; the embedding returns
`none` in that case. -/
def process_snapshot (b : OrderBook) (s : Snapshot) : Option OrderBook :=
  match s.bids.mapM decode_level, s.asks.mapM decode_level with
  | some bidLevels, some askLevels =>
    some { b with
            last_update_id := s.lastUpdateId
            bids := sort_bids (store_levels [] bidLevels)
            asks := sort_asks (store_levels [] askLevels) }
  | _, _ => none

/-! ### Delta stream processing -/

/-- Controller state: the mirrored book, the configured target ordinal, the
`running` flag of the websocket loop, and how many times the assertion
endpoint has been invoked (`_validate_order_book` calls). -/
structure ClientState where
  book : OrderBook
  target_ordinal : ℕ
  running : Bool
  validations : ℕ
deriving DecidableEq, Repr

/-- Big-endian value of a byte sequence. -/
def beVal (l : List ℕ) : ℕ := l.foldl (fun a b => 256 * a + b) 0

/-- The side field of a 26-byte delta frame (`>H`, bytes 0-1). -/
def sideOf (msg : List ℕ) : ℕ := beVal (msg.take 2)

/-- The ordinal field of a 26-byte delta frame (`>Q`, bytes 2-9). -/
def ordinalOf (msg : List ℕ) : ℕ := beVal ((msg.drop 2).take 8)

/-- The price field of a 26-byte delta frame (`>Q`, bytes 10-17). -/
def priceOf (msg : List ℕ) : ℕ := beVal ((msg.drop 10).take 8)

/-- The quantity field of a 26-byte delta frame (`>Q`, bytes 18-25). -/
def qtyOf (msg : List ℕ) : ℕ := beVal ((msg.drop 18).take 8)

/-- The mirror-level part of `_process_delta` on a decoded message: route to
`update_bid` when the side field is exactly 1, otherwise to `update_ask`,
then set `last_update_id` to the message's ordinal. -/
def apply_delta (b : OrderBook) (side ordinal price quantity : ℕ) :
    OrderBook :=
  let b1 := if side = 1 then update_bid b price quantity
            else update_ask b price quantity
  { b1 with last_update_id := ordinal }

/-- Apply a list of decoded deltas `(side, ordinal, price, quantity)`. -/
def apply_deltas (b : OrderBook) (ds : List (ℕ × ℕ × ℕ × ℕ)) : OrderBook :=
  ds.foldl (fun bk d => apply_delta bk d.1 d.2.1 d.2.2.1 d.2.2.2) b

/-- Embedding of `OrderBookClient._process_delta`: a frame whose length is
not 26 bytes is discarded without touching any state (`struct.unpack` on an
exact 26-byte buffer cannot fail, so the `struct.error` branch is dead).
Otherwise the delta is applied, and when the ordinal reaches the target the
book is submitted for validation and the loop flag is cleared. -/
def process_delta (st : ClientState) (msg : List ℕ) : ClientState :=
  if msg.length ≠ 26 then st
  else
    let st1 := { st with
                  book := apply_delta st.book (sideOf msg) (ordinalOf msg)
                            (priceOf msg) (qtyOf msg) }
    if st.target_ordinal ≤ ordinalOf msg then
      { st1 with validations := st1.validations + 1, running := false }
    else st1

/-- Embedding of the websocket read loop
`async for message in websocket: if not self.running: break; ...`:
each message is processed while `running` holds. -/
def run_stream (st : ClientState) : List (List ℕ) → ClientState
  | [] => st
  | m :: ms => if st.running then run_stream (process_delta st m) ms else st

/-- Embedding of the reconnection guard `while self.running:` around the
websocket connection: a new connection is attempted only when `running`
still holds. -/
def will_reconnect (st : ClientState) : Bool := st.running

/-- The URL of the snapshot request issued by `_get_snapshot`. -/
def snapshot_url : String := "http://localhost:9090/snapshot?depth=100"

/-- The depth query parameter of the snapshot request issued by
`_get_snapshot` for a client in state `st`: the URL is the constant
`snapshot_url`, so the parameter is always 100; the configured depth
`st.book.depth` is not consulted. -/
def snapshot_request_depth (st : ClientState) : ℕ := 100

/-! ### Specification lemmas for the binary64 model -/

theorem log2fuel_spec (fuel : ℕ) : ∀ n : ℕ, 0 < n → n < 2 ^ fuel →
    2 ^ log2fuel fuel n ≤ n ∧ n < 2 ^ (log2fuel fuel n + 1) := by
  induction fuel with
  | zero => intro n h0 hub; simp at hub; omega
  | succ fuel ih =>
    intro n h0 hub
    rw [log2fuel]
    by_cases h1 : n ≤ 1
    · rw [if_pos h1]; norm_num; omega
    · rw [if_neg h1]
      have hdiv : n / 2 < 2 ^ fuel := by rw [pow_succ] at hub; omega
      obtain ⟨hl, hu⟩ := ih (n / 2) (by omega) hdiv
      rw [pow_succ] at hu
      rw [pow_succ, pow_succ]
      omega

theorem natLog2_spec (n : ℕ) (h0 : 0 < n) (hub : n < 2 ^ 200) :
    2 ^ natLog2 n ≤ n ∧ n < 2 ^ (natLog2 n + 1) :=
  log2fuel_spec 200 n h0 hub

theorem zpow_neg_natCast (j : ℕ) : (2:ℚ) ^ (-(j:ℤ)) = 1 / 2 ^ j := by
  rw [zpow_neg, zpow_natCast, one_div]

theorem cast_two_pow (j : ℕ) : ((2 ^ j : ℕ) : ℚ) = (2:ℚ) ^ (j : ℤ) := by
  rw [zpow_natCast]; push_cast; ring

theorem expPQ_spec (num den : ℕ) (h1 : 0 < num) (h2 : 0 < den)
    (hub : num < 2 ^ 200 * den) (hlb : den < 2 ^ 200 * num) :
    (2:ℚ) ^ expPQ num den ≤ (num:ℚ) / den ∧
      (num:ℚ) / den < (2:ℚ) ^ (expPQ num den + 1) := by
  have hdq : (0:ℚ) < den := by exact_mod_cast h2
  have hnq : (0:ℚ) < num := by exact_mod_cast h1
  rw [expPQ]
  by_cases hge : den ≤ num
  · rw [if_pos hge]
    have hq0 : 0 < num / den := Nat.one_le_div_iff h2 |>.mpr hge
    have hqub : num / den < 2 ^ 200 := (Nat.div_lt_iff_lt_mul h2).mpr hub
    obtain ⟨hl, hu⟩ := natLog2_spec (num / den) hq0 hqub
    have hdm := Nat.div_add_mod num den
    have hmod := Nat.mod_lt num h2
    constructor
    · calc (2:ℚ) ^ ((natLog2 (num / den) : ℕ) : ℤ)
          = ((2 ^ natLog2 (num / den) : ℕ) : ℚ) := (cast_two_pow _).symm
        _ ≤ ((num / den : ℕ) : ℚ) := by exact_mod_cast hl
        _ ≤ (num:ℚ) / den := Nat.cast_div_le
    · have hnlt : num < (num / den + 1) * den := by
        calc num = den * (num / den) + num % den := hdm.symm
          _ < den * (num / den) + den := by omega
          _ = (num / den + 1) * den := by ring
      calc (num:ℚ) / den < ((num / den + 1 : ℕ) : ℚ) := by
            rw [div_lt_iff₀ hdq]; exact_mod_cast hnlt
        _ ≤ ((2 ^ (natLog2 (num / den) + 1) : ℕ) : ℚ) := by exact_mod_cast hu
        _ = (2:ℚ) ^ (((natLog2 (num / den) + 1 : ℕ)) : ℤ) := cast_two_pow _
        _ = (2:ℚ) ^ ((natLog2 (num / den) : ℤ) + 1) := by norm_cast
  · rw [if_neg hge]
    push_neg at hge
    have hk0 : 0 < den / num := Nat.one_le_div_iff h1 |>.mpr (le_of_lt hge)
    have hkub : den / num < 2 ^ 200 := (Nat.div_lt_iff_lt_mul h1).mpr hlb
    obtain ⟨hl, hu⟩ := natLog2_spec (den / num) hk0 hkub
    have hdm := Nat.div_add_mod den num
    have hmod := Nat.mod_lt den h1
    set m := natLog2 (den / num) with hm
    have hp2 : (0:ℚ) < 2 ^ m := by positivity
    by_cases hcase : den ≤ num * 2 ^ m
    · rw [if_pos hcase]
      have hge2 : num * 2 ^ m ≤ den := by
        calc num * 2 ^ m ≤ num * (den / num) := Nat.mul_le_mul_left _ hl
          _ ≤ den := by
            calc num * (den / num) ≤ num * (den / num) + den % num := Nat.le_add_right _ _
              _ = den := hdm
      have heq : den = num * 2 ^ m := le_antisymm hcase hge2
      have hv : (num:ℚ) / den = 1 / 2 ^ m := by
        rw [heq]; push_cast
        rw [div_eq_div_iff (by positivity) (ne_of_gt hp2)]; ring
      rw [hv, zpow_neg_natCast]
      refine ⟨le_refl _, ?_⟩
      have hrw : (2:ℚ) ^ (-(m:ℤ) + 1) = 2 / 2 ^ m := by
        rw [zpow_add_one₀ (by norm_num : (2:ℚ) ≠ 0), zpow_neg_natCast]; ring
      rw [hrw, div_lt_div_iff hp2 hp2]
      linarith
    · rw [if_neg hcase]
      push_neg at hcase
      have hu2 : den < num * (2 ^ m * 2) := by
        rw [pow_succ] at hu
        calc den = num * (den / num) + den % num := hdm.symm
          _ < num * (den / num) + num := by omega
          _ = num * (den / num + 1) := by ring
          _ ≤ num * (2 ^ m * 2) := Nat.mul_le_mul_left _ (by omega)
      constructor
      · have hexp : (2:ℚ) ^ (-(m:ℤ) - 1) = 1 / 2 ^ (m + 1) := by
          rw [show -(m:ℤ) - 1 = -((m + 1 : ℕ) : ℤ) by push_cast; ring, zpow_neg_natCast]
        rw [hexp, div_le_div_iff (by positivity) hdq, pow_succ]
        have hq : (den:ℚ) < (num:ℚ) * (2 ^ m * 2) := by exact_mod_cast hu2
        linarith
      · have hexp : -(m:ℤ) - 1 + 1 = -(m:ℤ) := by ring
        rw [hexp, zpow_neg_natCast, div_lt_div_iff hdq (by positivity)]
        have hq : (num:ℚ) * 2 ^ m < den := by exact_mod_cast hcase
        linarith

theorem rhe_err (A B : ℕ) (hB : 0 < B) :
    |(rhe A B : ℚ) - (A:ℚ) / B| ≤ 1 / 2 := by
  have hBq : (0:ℚ) < B := by exact_mod_cast hB
  have hdm := Nat.div_add_mod A B
  have hmod := Nat.mod_lt A hB
  have hA : (A:ℚ) = (B:ℚ) * ((A / B : ℕ) : ℚ) + ((A % B : ℕ) : ℚ) := by
    exact_mod_cast hdm.symm
  have hval : (A:ℚ) / B = ((A / B : ℕ) : ℚ) + ((A % B : ℕ) : ℚ) / B := by
    rw [hA, add_div, mul_div_cancel_left₀ _ (ne_of_gt hBq)]
  have h0r : (0:ℚ) ≤ ((A % B : ℕ) : ℚ) / B := by positivity
  rw [rhe, hval]
  split_ifs with hc1 hc2 hc3
  · have hle : ((A % B : ℕ) : ℚ) / B ≤ 1 / 2 := by
      rw [div_le_div_iff hBq (by norm_num)]
      exact_mod_cast (by omega : (A % B) * 2 ≤ 1 * B)
    rw [abs_le]; constructor <;> push_cast <;> linarith
  · have hge : 1 / 2 ≤ ((A % B : ℕ) : ℚ) / B := by
      rw [div_le_div_iff (by norm_num) hBq]
      exact_mod_cast (by omega : 1 * B ≤ (A % B) * 2)
    have h1r : ((A % B : ℕ) : ℚ) / B < 1 := by
      rw [div_lt_one hBq]; exact_mod_cast hmod
    rw [abs_le]; constructor <;> push_cast <;> linarith
  · have htie : ((A % B : ℕ) : ℚ) / B = 1 / 2 := by
      rw [div_eq_div_iff (ne_of_gt hBq) (by norm_num : (2:ℚ) ≠ 0)]
      exact_mod_cast (by omega : (A % B) * 2 = 1 * B)
    rw [abs_le]; constructor <;> push_cast <;> linarith
  · have htie : ((A % B : ℕ) : ℚ) / B = 1 / 2 := by
      rw [div_eq_div_iff (ne_of_gt hBq) (by norm_num : (2:ℚ) ≠ 0)]
      exact_mod_cast (by omega : (A % B) * 2 = 1 * B)
    rw [abs_le]; constructor <;> push_cast <;> linarith

theorem rhe_eq_of_near (A B n : ℕ) (hB : 0 < B)
    (h : |(A:ℚ) / B - n| < 1 / 2) : rhe A B = n := by
  have hBq : (0:ℚ) < B := by exact_mod_cast hB
  have hdm := Nat.div_add_mod A B
  have hmod := Nat.mod_lt A hB
  have hA : (A:ℚ) = (B:ℚ) * ((A / B : ℕ) : ℚ) + ((A % B : ℕ) : ℚ) := by
    exact_mod_cast hdm.symm
  have hval : (A:ℚ) / B = ((A / B : ℕ) : ℚ) + ((A % B : ℕ) : ℚ) / B := by
    rw [hA, add_div, mul_div_cancel_left₀ _ (ne_of_gt hBq)]
  have h0r : (0:ℚ) ≤ ((A % B : ℕ) : ℚ) / B := by positivity
  have h1r : ((A % B : ℕ) : ℚ) / B < 1 := by
    rw [div_lt_one hBq]; exact_mod_cast hmod
  rw [hval] at h
  rw [abs_lt] at h
  obtain ⟨hlo, hhi⟩ := h
  rw [rhe]
  split_ifs with hc1 hc2 hc3
  · -- round down: the fractional part is below one half
    have hle : ((A % B : ℕ) : ℚ) / B < 1 / 2 := by
      rw [div_lt_div_iff hBq (by norm_num)]
      exact_mod_cast (by omega : (A % B) * 2 < 1 * B)
    have hub : ((A / B : ℕ) : ℚ) < (n:ℚ) + 1 := by push_cast at hhi ⊢; linarith
    have hlb : (n:ℚ) < ((A / B : ℕ) : ℚ) + 1 := by push_cast at hlo ⊢; linarith
    have hub2 : A / B < n + 1 := by exact_mod_cast hub
    have hlb2 : n < A / B + 1 := by exact_mod_cast hlb
    omega
  · -- round up: the fractional part is above one half
    have hge : 1 / 2 < ((A % B : ℕ) : ℚ) / B := by
      rw [div_lt_div_iff (by norm_num) hBq]
      exact_mod_cast (by omega : 1 * B < (A % B) * 2)
    have hub : ((A / B : ℕ) : ℚ) < n := by push_cast at hhi ⊢; linarith
    have hlb : (n:ℚ) < ((A / B : ℕ) : ℚ) + 2 := by push_cast at hlo ⊢; linarith
    have hub2 : A / B < n := by exact_mod_cast hub
    have hlb2 : n < A / B + 2 := by exact_mod_cast hlb
    omega
  · -- an exact tie is impossible strictly within one half of an integer
    exfalso
    have htie : ((A % B : ℕ) : ℚ) / B = 1 / 2 := by
      rw [div_eq_div_iff (ne_of_gt hBq) (by norm_num : (2:ℚ) ≠ 0)]
      exact_mod_cast (by omega : (A % B) * 2 = 1 * B)
    rw [htie] at hlo hhi
    have hub : ((A / B : ℕ) : ℚ) < n := by linarith
    have hlb : (n:ℚ) < ((A / B : ℕ) : ℚ) + 1 := by linarith
    have hub2 : A / B < n := by exact_mod_cast hub
    have hlb2 : n < A / B + 1 := by exact_mod_cast hlb
    omega
  · exfalso
    have htie : ((A % B : ℕ) : ℚ) / B = 1 / 2 := by
      rw [div_eq_div_iff (ne_of_gt hBq) (by norm_num : (2:ℚ) ≠ 0)]
      exact_mod_cast (by omega : (A % B) * 2 = 1 * B)
    rw [htie] at hlo hhi
    have hub : ((A / B : ℕ) : ℚ) < n := by linarith
    have hlb : (n:ℚ) < ((A / B : ℕ) : ℚ) + 1 := by linarith
    have hub2 : A / B < n := by exact_mod_cast hub
    have hlb2 : n < A / B + 1 := by exact_mod_cast hlb
    omega

theorem roundDouble_eq (num den : ℕ) (h : num ≠ 0) :
    roundDouble num den =
      (rhe (num * 2 ^ ((52 - expPQ num den).toNat))
          (den * 2 ^ ((expPQ num den - 52).toNat)) *
        2 ^ ((expPQ num den - 52).toNat),
       2 ^ ((52 - expPQ num den).toNat)) := by
  rw [roundDouble, if_neg h]

theorem roundDouble_den_pos (num den : ℕ) : 0 < (roundDouble num den).2 := by
  by_cases h : num = 0
  · rw [roundDouble, if_pos h]; norm_num
  · rw [roundDouble_eq num den h]; exact pow_pos (by norm_num) _

theorem pqVal_pos_num (p : ℕ × ℕ) (h : 0 < pqVal p) : 0 < p.1 := by
  by_contra h0
  push_neg at h0
  have hz : p.1 = 0 := by omega
  rw [pqVal, hz] at h
  norm_num at h

theorem expPQ_le (num den : ℕ) (c : ℤ) (h1 : 0 < num) (h2 : 0 < den)
    (hub : num < 2 ^ 200 * den) (hlb : den < 2 ^ 200 * num)
    (hv : (num:ℚ) / den < (2:ℚ) ^ (c + 1)) : expPQ num den ≤ c := by
  obtain ⟨hel, _⟩ := expPQ_spec num den h1 h2 hub hlb
  have hlt : (2:ℚ) ^ expPQ num den < (2:ℚ) ^ (c + 1) := lt_of_le_of_lt hel hv
  have := (zpow_lt_zpow_iff_right₀ (by norm_num : (1:ℚ) < 2)).mp hlt
  omega

theorem scaled_err (num den U D : ℕ) (e : ℤ) (h2 : 0 < den)
    (hUD : (U:ℤ) - (D:ℤ) = 52 - e) :
    |((rhe (num * 2 ^ U) (den * 2 ^ D) : ℕ) : ℚ) * (2:ℚ) ^ D / (2:ℚ) ^ U -
        (num:ℚ) / den| ≤ (2:ℚ) ^ (e - 53) := by
  have hBpos : 0 < den * 2 ^ D := Nat.mul_pos h2 (pow_pos (by norm_num) D)
  have hrhe := rhe_err (num * 2 ^ U) (den * 2 ^ D) hBpos
  have ht : (0:ℚ) < (2:ℚ) ^ (e - 52) := zpow_pos (by norm_num) _
  have hsc : ((num * 2 ^ U : ℕ) : ℚ) / ((den * 2 ^ D : ℕ) : ℚ)
      = ((num:ℚ) / den) * (2:ℚ) ^ ((52:ℤ) - e) := by
    push_cast
    rw [← hUD, zpow_sub₀ (by norm_num : (2:ℚ) ≠ 0), zpow_natCast, zpow_natCast,
        div_mul_div_comm]
  have hres : ((rhe (num * 2 ^ U) (den * 2 ^ D) : ℕ) : ℚ) * (2:ℚ) ^ D / (2:ℚ) ^ U
      = ((rhe (num * 2 ^ U) (den * 2 ^ D) : ℕ) : ℚ) * (2:ℚ) ^ (e - 52) := by
    rw [show e - 52 = (D:ℤ) - (U:ℤ) by omega, zpow_sub₀ (by norm_num : (2:ℚ) ≠ 0),
        zpow_natCast, zpow_natCast, mul_div_assoc]
  have hstv : (((num * 2 ^ U : ℕ) : ℚ) / ((den * 2 ^ D : ℕ) : ℚ)) * (2:ℚ) ^ (e - 52)
      = (num:ℚ) / den := by
    rw [hsc, mul_assoc, ← zpow_add₀ (by norm_num : (2:ℚ) ≠ 0),
        show (52:ℤ) - e + (e - 52) = 0 by ring, zpow_zero, mul_one]
  rw [hres]
  calc |((rhe (num * 2 ^ U) (den * 2 ^ D) : ℕ) : ℚ) * (2:ℚ) ^ (e - 52) - (num:ℚ) / den|
      = |(((rhe (num * 2 ^ U) (den * 2 ^ D) : ℕ) : ℚ) -
          ((num * 2 ^ U : ℕ) : ℚ) / ((den * 2 ^ D : ℕ) : ℚ)) * (2:ℚ) ^ (e - 52)| := by
        rw [sub_mul, hstv]
    _ = |((rhe (num * 2 ^ U) (den * 2 ^ D) : ℕ) : ℚ) -
          ((num * 2 ^ U : ℕ) : ℚ) / ((den * 2 ^ D : ℕ) : ℚ)| * (2:ℚ) ^ (e - 52) := by
        rw [abs_mul, abs_of_pos ht]
    _ ≤ (1 / 2) * (2:ℚ) ^ (e - 52) := mul_le_mul_of_nonneg_right hrhe (le_of_lt ht)
    _ = (2:ℚ) ^ (e - 53) := by
        rw [show e - 53 = -1 + (e - 52) by ring, zpow_add₀ (by norm_num : (2:ℚ) ≠ 0)]
        norm_num

theorem roundDouble_err (num den : ℕ) (h1 : 0 < num) (h2 : 0 < den) :
    |pqVal (roundDouble num den) - (num:ℚ) / den| ≤
      (2:ℚ) ^ (expPQ num den - 53) := by
  rw [roundDouble_eq num den (by omega : num ≠ 0), pqVal]
  push_cast
  exact scaled_err num den _ _ (expPQ num den) h2 (by omega)

theorem round_format_decimal (v : ℕ) :
    round (format_decimal v * 10 ^ 7) =
      ((rhe ((roundDouble v (10 ^ 7)).1 * 10 ^ 7) ((roundDouble v (10 ^ 7)).2) :
        ℕ) : ℤ) := by
  have h : format_decimal v =
      ((rhe ((roundDouble v (10 ^ 7)).1 * 10 ^ 7) ((roundDouble v (10 ^ 7)).2) :
        ℕ) : ℚ) / 10 ^ 7 := rfl
  rw [h, div_mul_cancel₀ _ (by norm_num : ((10:ℚ) ^ 7) ≠ 0), round_natCast]

/-- Claim C8, amended: for every stored value `v ≤ 5 * 10^15` the rendered
fixed-point string with 7 fractional digits parses and rescales back to
exactly `v`; beyond roughly `2^29 * 10^7` the binary64 quotient `v / 10^7`
is too coarse and the round-trip can fail (see the counterexample). -/
theorem serialize_round_trip_aux (v : ℕ) (hv : v ≤ 5 * 10 ^ 15) :
    round (format_decimal v * 10 ^ 7) = (v : ℤ) := by
  rw [round_format_decimal]
  by_cases h0 : v = 0
  · subst h0
    have hz : rhe ((roundDouble 0 (10 ^ 7)).1 * 10 ^ 7)
        ((roundDouble 0 (10 ^ 7)).2) = 0 := by decide
    rw [hz]
  · have h1 : 0 < v := by omega
    suffices h : rhe ((roundDouble v (10 ^ 7)).1 * 10 ^ 7)
        ((roundDouble v (10 ^ 7)).2) = v by exact_mod_cast h
    have hden := roundDouble_den_pos v (10 ^ 7)
    apply rhe_eq_of_near _ _ _ hden
    have herr := roundDouble_err v (10 ^ 7) h1 (by norm_num)
    have hexp : expPQ v (10 ^ 7) ≤ 28 := by
      apply expPQ_le v (10 ^ 7) 28 h1 (by norm_num)
      · calc v ≤ 5 * 10 ^ 15 := hv
          _ < 2 ^ 200 * 10 ^ 7 := by norm_num
      · calc (10:ℕ) ^ 7 < 2 ^ 200 * 1 := by norm_num
          _ ≤ 2 ^ 200 * v := Nat.mul_le_mul_left _ h1
      · rw [show (28:ℤ) + 1 = ((29:ℕ):ℤ) by norm_num, zpow_natCast,
            div_lt_iff₀ (by positivity : (0:ℚ) < ((10 ^ 7 : ℕ) : ℚ))]
        push_cast
        have hvq : (v:ℚ) ≤ 5 * 10 ^ 15 := by exact_mod_cast hv
        nlinarith [hvq]
    have hbound : (2:ℚ) ^ (expPQ v (10 ^ 7) - 53) ≤ (2:ℚ) ^ (-25 : ℤ) :=
      (zpow_le_zpow_iff_right₀ (by norm_num : (1:ℚ) < 2)).mpr (by omega)
    have herr2 : |pqVal (roundDouble v (10 ^ 7)) - (v:ℚ) / ((10 ^ 7 : ℕ) : ℚ)| ≤
        (2:ℚ) ^ (-25 : ℤ) := le_trans herr hbound
    have hvv : (((roundDouble v (10 ^ 7)).1 * 10 ^ 7 : ℕ) : ℚ) /
          (((roundDouble v (10 ^ 7)).2 : ℕ) : ℚ)
        = pqVal (roundDouble v (10 ^ 7)) * ((10 ^ 7 : ℕ) : ℚ) := by
      rw [pqVal]; push_cast; ring
    rw [hvv]
    have hsplit : pqVal (roundDouble v (10 ^ 7)) * ((10 ^ 7 : ℕ) : ℚ) - (v:ℚ)
        = (pqVal (roundDouble v (10 ^ 7)) - (v:ℚ) / ((10 ^ 7 : ℕ) : ℚ)) *
            ((10 ^ 7 : ℕ) : ℚ) := by
      field_simp
    rw [hsplit, abs_mul, abs_of_pos (by positivity : (0:ℚ) < ((10 ^ 7 : ℕ) : ℚ))]
    calc |pqVal (roundDouble v (10 ^ 7)) - (v:ℚ) / ((10 ^ 7 : ℕ) : ℚ)| *
          ((10 ^ 7 : ℕ) : ℚ)
        ≤ (2:ℚ) ^ (-25 : ℤ) * ((10 ^ 7 : ℕ) : ℚ) :=
          mul_le_mul_of_nonneg_right herr2 (by positivity)
      _ < 1 / 2 := by
          rw [show (-25:ℤ) = -((25:ℕ):ℤ) by norm_num, zpow_neg_natCast]
          push_cast
          norm_num

theorem parseDec_den (s : String) (num den : ℕ)
    (h : parseDec s = some (num, den)) : ∃ k, den = 10 ^ k := by
  unfold parseDec at h
  split at h
  · simp at h
  · split at h
    · simp at h
    · split at h
      · simp at h
        exact ⟨_, h.2.symm⟩
      · simp at h

/-- Claim C3, amended: the snapshot decode `int(float(s) * 10_000_000)` is a
truncation of the binary64 product, not a rounding; for every decimal
string whose exact value is `n / 10^7` with `1 ≤ n ≤ 2^49`, the stored
integer is either `n` or `n - 1` (and `n - 1` does occur, see the
counterexample). -/
theorem decode_near (s : String) (num den n : ℕ)
    (hp : parseDec s = some (num, den)) (hval : num * 10 ^ 7 = n * den)
    (h1 : 1 ≤ n) (h49 : n ≤ 2 ^ 49) :
    py_decode s = some (n - 1) ∨ py_decode s = some n := by
  obtain ⟨k, hk⟩ := parseDec_den s num den hp
  have hden : 0 < den := by rw [hk]; exact pow_pos (by norm_num) k
  have hdq : (0:ℚ) < (den:ℚ) := by exact_mod_cast hden
  have hnum : 0 < num := by
    have hpos : 0 < n * den := Nat.mul_pos (by omega) hden
    rw [← hval] at hpos
    omega
  have hT : (0:ℚ) < ((10 ^ 7 : ℕ) : ℚ) := by positivity
  have hnq1 : (1:ℚ) ≤ (n:ℚ) := by exact_mod_cast h1
  have hnq49 : (n:ℚ) ≤ 2 ^ 49 := by exact_mod_cast h49
  -- the exact parsed value is n / 10^7
  have hvq : (num:ℚ) / den = (n:ℚ) / ((10 ^ 7 : ℕ) : ℚ) := by
    rw [div_eq_div_iff (ne_of_gt hdq) (ne_of_gt hT)]
    exact_mod_cast hval
  -- range hypotheses for the first rounding
  have hub1 : num < 2 ^ 200 * den := by
    calc num ≤ num * 10 ^ 7 := Nat.le_mul_of_pos_right _ (by norm_num)
      _ = n * den := hval
      _ ≤ 2 ^ 49 * den := Nat.mul_le_mul_right _ h49
      _ < 2 ^ 200 * den := mul_lt_mul_of_pos_right (by norm_num) hden
  have hlb1 : den < 2 ^ 200 * num := by
    calc den ≤ n * den := Nat.le_mul_of_pos_left _ (by omega)
      _ = num * 10 ^ 7 := hval.symm
      _ < num * 2 ^ 200 := mul_lt_mul_of_pos_left (by norm_num) hnum
      _ = 2 ^ 200 * num := by ring
  have hexp1 : expPQ num den ≤ 25 := by
    apply expPQ_le num den 25 hnum hden hub1 hlb1
    rw [hvq, show (25:ℤ) + 1 = ((26:ℕ):ℤ) by norm_num, zpow_natCast,
        div_lt_iff₀ hT]
    push_cast
    nlinarith [hnq49]
  have hb1 : (2:ℚ) ^ (expPQ num den - 53) ≤ (2:ℚ) ^ (-28 : ℤ) :=
    (zpow_le_zpow_iff_right₀ (by norm_num : (1:ℚ) < 2)).mpr (by omega)
  have herr1 := roundDouble_err num den hnum hden
  -- an opaque view of the first rounding result
  obtain ⟨d1, d2, hd⟩ : ∃ d1 d2, roundDouble num den = (d1, d2) :=
    ⟨(roundDouble num den).1, (roundDouble num den).2, rfl⟩
  have hd2pos : 0 < d2 := by
    have h := roundDouble_den_pos num den
    rw [hd] at h
    exact h
  have hd2q : (0:ℚ) < (d2:ℚ) := by exact_mod_cast hd2pos
  rw [hd] at herr1
  have herr1b : |(d1:ℚ) / (d2:ℚ) - (n:ℚ) / ((10 ^ 7 : ℕ) : ℚ)| ≤
      (2:ℚ) ^ (-28 : ℤ) := by
    have hpq : pqVal (d1, d2) = (d1:ℚ) / (d2:ℚ) := rfl
    rw [← hpq, ← hvq]
    exact le_trans herr1 hb1
  clear herr1 hb1 hexp1
  have h28 : (2:ℚ) ^ (-28 : ℤ) = 1 / 2 ^ 28 := by
    rw [show (-28:ℤ) = -((28:ℕ):ℤ) by norm_num, zpow_neg_natCast]
  have hsmall : (2:ℚ) ^ (-28 : ℤ) < 1 / ((10 ^ 7 : ℕ) : ℚ) := by
    rw [h28, div_lt_div_iff (by positivity) hT]
    push_cast
    norm_num
  have hval_lb : (1:ℚ) / ((10 ^ 7 : ℕ) : ℚ) ≤ (n:ℚ) / ((10 ^ 7 : ℕ) : ℚ) := by
    rw [div_le_div_iff hT hT]
    nlinarith [hnq1, hT]
  have habs1 := abs_le.mp herr1b
  -- the quotient double is positive
  have hd1pos : 0 < d1 := by
    by_contra h0
    push_neg at h0
    have hz : d1 = 0 := by omega
    subst hz
    rw [show ((0:ℕ):ℚ) / (d2:ℚ) = 0 by norm_num] at habs1
    have := habs1.1
    linarith [hval_lb, hsmall]
  -- distance of the product value to n
  have hprod_near : |(d1:ℚ) / (d2:ℚ) * ((10 ^ 7 : ℕ) : ℚ) - (n:ℚ)| ≤
      (2:ℚ) ^ (-28 : ℤ) * ((10 ^ 7 : ℕ) : ℚ) := by
    have hsplit : (d1:ℚ) / (d2:ℚ) * ((10 ^ 7 : ℕ) : ℚ) - (n:ℚ)
        = ((d1:ℚ) / (d2:ℚ) - (n:ℚ) / ((10 ^ 7 : ℕ) : ℚ)) * ((10 ^ 7 : ℕ) : ℚ) := by
      field_simp
      ring
    rw [hsplit, abs_mul, abs_of_pos hT]
    exact mul_le_mul_of_nonneg_right herr1b (le_of_lt hT)
  have heps : (2:ℚ) ^ (-28 : ℤ) * ((10 ^ 7 : ℕ) : ℚ) < 1 / 16 := by
    rw [h28]
    push_cast
    norm_num
  have habs_prod := abs_le.mp hprod_near
  -- value of the pair fed to the second rounding
  have hvv2 : ((d1 * 10 ^ 7 : ℕ) : ℚ) / (d2 : ℚ)
      = (d1:ℚ) / (d2:ℚ) * ((10 ^ 7 : ℕ) : ℚ) := by
    push_cast
    ring
  have hnum2 : 0 < d1 * 10 ^ 7 := by positivity
  have hq_ub : ((d1 * 10 ^ 7 : ℕ) : ℚ) / (d2 : ℚ) < 2 ^ 50 := by
    rw [hvv2]
    nlinarith [habs_prod.2, heps, hnq49, (by norm_num : (2:ℚ) ^ 49 + 1 < 2 ^ 50)]
  have hq_lb : (1:ℚ) / 2 < ((d1 * 10 ^ 7 : ℕ) : ℚ) / (d2 : ℚ) := by
    rw [hvv2]
    nlinarith [habs_prod.1, heps, hnq1]
  have hnat50 : d1 * 10 ^ 7 < 2 ^ 50 * d2 := by
    have hq : ((d1 * 10 ^ 7 : ℕ) : ℚ) < 2 ^ 50 * (d2 : ℚ) := by
      rw [div_lt_iff₀ hd2q] at hq_ub
      exact hq_ub
    exact_mod_cast hq
  have hub2 : d1 * 10 ^ 7 < 2 ^ 200 * d2 :=
    lt_of_lt_of_le hnat50 (Nat.mul_le_mul_right _ (by norm_num))
  have hnat2 : d2 < 2 * (d1 * 10 ^ 7) := by
    have hq : (d2 : ℚ) < 2 * ((d1 * 10 ^ 7 : ℕ) : ℚ) := by
      rw [lt_div_iff₀ hd2q] at hq_lb
      push_cast at hq_lb ⊢
      linarith [hq_lb]
    exact_mod_cast hq
  have hlb2 : d2 < 2 ^ 200 * (d1 * 10 ^ 7) :=
    lt_of_lt_of_le hnat2 (Nat.mul_le_mul_right _ (by norm_num))
  have hexp2 : expPQ (d1 * 10 ^ 7) d2 ≤ 49 := by
    apply expPQ_le _ _ 49 hnum2 hd2pos hub2 hlb2
    rw [show (49:ℤ) + 1 = ((50:ℕ):ℤ) by norm_num, zpow_natCast]
    exact_mod_cast hq_ub
  have hb2 : (2:ℚ) ^ (expPQ (d1 * 10 ^ 7) d2 - 53) ≤ (2:ℚ) ^ (-4 : ℤ) :=
    (zpow_le_zpow_iff_right₀ (by norm_num : (1:ℚ) < 2)).mpr (by omega)
  have h4 : (2:ℚ) ^ (-4 : ℤ) = 1 / 16 := by
    rw [show (-4:ℤ) = -((4:ℕ):ℤ) by norm_num, zpow_neg_natCast]
    norm_num
  have herr2 := roundDouble_err (d1 * 10 ^ 7) d2 hnum2 hd2pos
  -- an opaque view of the second rounding result
  obtain ⟨p1, p2, hpd⟩ : ∃ p1 p2, roundDouble (d1 * 10 ^ 7) d2 = (p1, p2) :=
    ⟨(roundDouble (d1 * 10 ^ 7) d2).1, (roundDouble (d1 * 10 ^ 7) d2).2, rfl⟩
  have hp2pos : 0 < p2 := by
    have h := roundDouble_den_pos (d1 * 10 ^ 7) d2
    rw [hpd] at h
    exact h
  have hp2q : (0:ℚ) < (p2 : ℚ) := by exact_mod_cast hp2pos
  rw [hpd] at herr2
  have herr2b : |(p1:ℚ) / (p2:ℚ) - (d1:ℚ) / (d2:ℚ) * ((10 ^ 7 : ℕ) : ℚ)| ≤
      1 / 16 := by
    have hpq : pqVal (p1, p2) = (p1:ℚ) / (p2:ℚ) := rfl
    rw [← hpq, ← hvv2]
    rw [← h4]
    exact le_trans herr2 hb2
  clear herr2 hb2 hexp2
  have habs2 := abs_le.mp herr2b
  -- the final double is within 1/4 of n
  have hfinal_lb : (n:ℚ) - 1 / 4 < (p1:ℚ) / (p2:ℚ) := by
    nlinarith [habs_prod.1, heps, habs2.1]
  have hfinal_ub : (p1:ℚ) / (p2:ℚ) < (n:ℚ) + 1 / 4 := by
    nlinarith [habs_prod.2, heps, habs2.2]
  -- hence the truncated quotient is n - 1 or n
  have hdivub : p1 / p2 < n + 1 := by
    rw [Nat.div_lt_iff_lt_mul hp2pos]
    have hq : (p1 : ℚ) < ((n + 1 : ℕ) : ℚ) * (p2 : ℚ) := by
      rw [div_lt_iff₀ hp2q] at hfinal_ub
      push_cast
      push_cast at hfinal_ub
      nlinarith [hfinal_ub, hp2q]
    exact_mod_cast hq
  have hdivlb : n - 1 ≤ p1 / p2 := by
    rw [Nat.le_div_iff_mul_le hp2pos]
    have hq : ((n - 1 : ℕ) : ℚ) * (p2 : ℚ) ≤ (p1 : ℚ) := by
      rw [lt_div_iff₀ hp2q] at hfinal_lb
      rw [Nat.cast_sub h1]
      push_cast
      push_cast at hfinal_lb
      nlinarith [hfinal_lb, hp2q]
    exact_mod_cast hq
  have hpy : py_decode s = some
      ((roundDouble ((roundDouble num den).1 * 10 ^ 7) ((roundDouble num den).2)).1 /
        (roundDouble ((roundDouble num den).1 * 10 ^ 7) ((roundDouble num den).2)).2) := by
    rw [py_decode, hp]
    rfl
  rw [hd] at hpy
  dsimp only at hpy
  rw [hpd] at hpy
  dsimp only at hpy
  rw [hpy]
  rcases (by omega : p1 / p2 = n - 1 ∨ p1 / p2 = n) with hc | hc
  · left; rw [hc]
  · right; rw [hc]

/-! ### Lemmas about the ledger operations -/

instance : IsTotal (ℕ × ℕ) (fun a b : ℕ × ℕ => b.1 ≤ a.1) :=
  ⟨fun a b => le_total b.1 a.1⟩

instance : IsTrans (ℕ × ℕ) (fun a b : ℕ × ℕ => b.1 ≤ a.1) :=
  ⟨fun _ _ _ hab hbc => le_trans hbc hab⟩

instance : IsTotal (ℕ × ℕ) (fun a b : ℕ × ℕ => a.1 ≤ b.1) :=
  ⟨fun a b => le_total a.1 b.1⟩

instance : IsTrans (ℕ × ℕ) (fun a b : ℕ × ℕ => a.1 ≤ b.1) :=
  ⟨fun _ _ _ hab hbc => le_trans hab hbc⟩

theorem sort_bids_sorted (l : List (ℕ × ℕ)) :
    (sort_bids l).Pairwise (fun a b => b.1 ≤ a.1) :=
  List.sorted_insertionSort _ l

theorem sort_asks_sorted (l : List (ℕ × ℕ)) :
    (sort_asks l).Pairwise (fun a b => a.1 ≤ b.1) :=
  List.sorted_insertionSort _ l

theorem sort_bids_perm (l : List (ℕ × ℕ)) : List.Perm (sort_bids l) l :=
  List.perm_insertionSort _ l

theorem sort_asks_perm (l : List (ℕ × ℕ)) : List.Perm (sort_asks l) l :=
  List.perm_insertionSort _ l

theorem dictSet_keys_nodup (l : List (ℕ × ℕ)) (k v : ℕ)
    (h : (l.map Prod.fst).Nodup) : ((dictSet l k v).map Prod.fst).Nodup := by
  rw [dictSet]
  split_ifs with hc
  · have hkeys : (l.map (fun p => if p.1 = k then (k, v) else p)).map Prod.fst
        = l.map Prod.fst := by
      rw [List.map_map]
      apply List.map_congr_left
      intro p hp
      by_cases hpk : p.1 = k
      · simp [hpk]
      · simp [hpk]
    rw [hkeys]
    exact h
  · rw [List.map_append]
    simp only [List.map_cons, List.map_nil]
    rw [List.nodup_append]
    refine ⟨h, by simp, ?_⟩
    intro a ha
    simp only [List.mem_singleton]
    intro hak
    subst hak
    rcases List.mem_map.mp ha with ⟨q, hq, hqe⟩
    apply hc
    rw [List.any_eq_true]
    exact ⟨q, hq, by simp [hqe]⟩

theorem mem_dictSet (l : List (ℕ × ℕ)) (k v : ℕ) (p : ℕ × ℕ)
    (hp : p ∈ dictSet l k v) : p ∈ l ∨ p = (k, v) := by
  rw [dictSet] at hp
  split_ifs at hp with hc
  · rcases List.mem_map.mp hp with ⟨q, hq, hqe⟩
    by_cases hqk : q.1 = k
    · right; rw [if_pos hqk] at hqe; exact hqe.symm
    · left; rw [if_neg hqk] at hqe; rw [← hqe]; exact hq
  · rcases List.mem_append.mp hp with h | h
    · left; exact h
    · right; simpa using h

theorem store_levels_nodup (entries : List (ℕ × ℕ)) : ∀ init : List (ℕ × ℕ),
    (init.map Prod.fst).Nodup → ((store_levels init entries).map Prod.fst).Nodup := by
  induction entries with
  | nil => intro init h; exact h
  | cons e es ih =>
    intro init h
    exact ih _ (dictSet_keys_nodup _ _ _ h)

theorem mem_store_levels (entries : List (ℕ × ℕ)) : ∀ (init : List (ℕ × ℕ))
    (p : ℕ × ℕ), p ∈ store_levels init entries → p ∈ init ∨ p ∈ entries := by
  induction entries with
  | nil => intro init p hp; left; exact hp
  | cons e es ih =>
    intro init p hp
    rcases ih _ p hp with h | h
    · rcases mem_dictSet _ _ _ _ h with h2 | h2
      · left; exact h2
      · right
        rw [h2, Prod.mk.eta]
        exact List.mem_cons_self _ _
    · right
      exact List.mem_cons_of_mem _ h

theorem sorted_strict_bids (l : List (ℕ × ℕ))
    (hs : l.Pairwise (fun a b => b.1 ≤ a.1)) (hn : (l.map Prod.fst).Nodup) :
    l.Pairwise (fun a b => b.1 < a.1) := by
  have hne : l.Pairwise (fun a b : ℕ × ℕ => a.1 ≠ b.1) := (List.pairwise_map).mp hn
  exact (hs.and hne).imp (fun h => lt_of_le_of_ne h.1 (Ne.symm h.2))

theorem sorted_strict_asks (l : List (ℕ × ℕ))
    (hs : l.Pairwise (fun a b => a.1 ≤ b.1)) (hn : (l.map Prod.fst).Nodup) :
    l.Pairwise (fun a b => a.1 < b.1) := by
  have hne : l.Pairwise (fun a b : ℕ × ℕ => a.1 ≠ b.1) := (List.pairwise_map).mp hn
  exact (hs.and hne).imp (fun h => lt_of_le_of_ne h.1 h.2)

theorem strict_bids_nodup (l : List (ℕ × ℕ))
    (h : l.Pairwise (fun a b => b.1 < a.1)) : (l.map Prod.fst).Nodup :=
  (List.pairwise_map).mpr (h.imp (fun hab => (ne_of_lt hab).symm))

theorem strict_asks_nodup (l : List (ℕ × ℕ))
    (h : l.Pairwise (fun a b => a.1 < b.1)) : (l.map Prod.fst).Nodup :=
  (List.pairwise_map).mpr (h.imp (fun hab => ne_of_lt hab))

theorem update_bid_strict (b : OrderBook) (price qty : ℕ)
    (hb : b.bids.Pairwise (fun a c => c.1 < a.1)) :
    (update_bid b price qty).bids.Pairwise (fun a c => c.1 < a.1) := by
  rw [update_bid]
  split_ifs with hq
  · exact hb.sublist (List.filter_sublist _)
  · apply sorted_strict_bids
    · exact sort_bids_sorted _
    · have hnd := dictSet_keys_nodup b.bids price qty (strict_bids_nodup _ hb)
      have hperm : List.Perm ((sort_bids (dictSet b.bids price qty)).map Prod.fst)
          ((dictSet b.bids price qty).map Prod.fst) :=
        (sort_bids_perm _).map _
      exact hperm.nodup_iff.mpr hnd

theorem update_ask_strict (b : OrderBook) (price qty : ℕ)
    (ha : b.asks.Pairwise (fun a c => a.1 < c.1)) :
    (update_ask b price qty).asks.Pairwise (fun a c => a.1 < c.1) := by
  rw [update_ask]
  split_ifs with hq
  · exact ha.sublist (List.filter_sublist _)
  · apply sorted_strict_asks
    · exact sort_asks_sorted _
    · have hnd := dictSet_keys_nodup b.asks price qty (strict_asks_nodup _ ha)
      have hperm : List.Perm ((sort_asks (dictSet b.asks price qty)).map Prod.fst)
          ((dictSet b.asks price qty).map Prod.fst) :=
        (sort_asks_perm _).map _
      exact hperm.nodup_iff.mpr hnd

theorem update_bid_asks (b : OrderBook) (price qty : ℕ) :
    (update_bid b price qty).asks = b.asks := by
  rw [update_bid]; split_ifs <;> rfl

theorem update_ask_bids (b : OrderBook) (price qty : ℕ) :
    (update_ask b price qty).bids = b.bids := by
  rw [update_ask]; split_ifs <;> rfl

theorem apply_delta_strict (b : OrderBook) (side ordinal price qty : ℕ)
    (hb : b.bids.Pairwise (fun a c => c.1 < a.1))
    (ha : b.asks.Pairwise (fun a c => a.1 < c.1)) :
    (apply_delta b side ordinal price qty).bids.Pairwise (fun a c => c.1 < a.1) ∧
      (apply_delta b side ordinal price qty).asks.Pairwise (fun a c => a.1 < c.1) := by
  rw [apply_delta]
  by_cases hside : side = 1
  · rw [if_pos hside]
    exact ⟨update_bid_strict b price qty hb, by rw [update_bid_asks]; exact ha⟩
  · rw [if_neg hside]
    exact ⟨by rw [update_ask_bids]; exact hb, update_ask_strict b price qty ha⟩

theorem update_bid_zeroFree (b : OrderBook) (price qty : ℕ)
    (hb : ∀ q ∈ b.bids, q.2 ≠ 0) :
    ∀ q ∈ (update_bid b price qty).bids, q.2 ≠ 0 := by
  rw [update_bid]
  split_ifs with h
  · intro q hq
    exact hb q (List.mem_of_mem_filter hq)
  · intro q hq
    have hq2 : q ∈ dictSet b.bids price qty := (sort_bids_perm _).mem_iff.mp hq
    rcases mem_dictSet _ _ _ _ hq2 with h2 | h2
    · exact hb q h2
    · rw [h2]; exact h

theorem update_ask_zeroFree (b : OrderBook) (price qty : ℕ)
    (ha : ∀ q ∈ b.asks, q.2 ≠ 0) :
    ∀ q ∈ (update_ask b price qty).asks, q.2 ≠ 0 := by
  rw [update_ask]
  split_ifs with h
  · intro q hq
    exact ha q (List.mem_of_mem_filter hq)
  · intro q hq
    have hq2 : q ∈ dictSet b.asks price qty := (sort_asks_perm _).mem_iff.mp hq
    rcases mem_dictSet _ _ _ _ hq2 with h2 | h2
    · exact ha q h2
    · rw [h2]; exact h

theorem apply_delta_zeroFree (b : OrderBook) (side ordinal price qty : ℕ)
    (hb : ∀ q ∈ b.bids, q.2 ≠ 0) (ha : ∀ q ∈ b.asks, q.2 ≠ 0) :
    (∀ q ∈ (apply_delta b side ordinal price qty).bids, q.2 ≠ 0) ∧
      (∀ q ∈ (apply_delta b side ordinal price qty).asks, q.2 ≠ 0) := by
  rw [apply_delta]
  by_cases hside : side = 1
  · rw [if_pos hside]
    exact ⟨update_bid_zeroFree b price qty hb, by rw [update_bid_asks]; exact ha⟩
  · rw [if_neg hside]
    exact ⟨by rw [update_ask_bids]; exact hb, update_ask_zeroFree b price qty ha⟩

theorem apply_deltas_cons (b : OrderBook) (d : ℕ × ℕ × ℕ × ℕ)
    (ds : List (ℕ × ℕ × ℕ × ℕ)) :
    apply_deltas b (d :: ds) =
      apply_deltas (apply_delta b d.1 d.2.1 d.2.2.1 d.2.2.2) ds := rfl

theorem apply_deltas_zeroFree (ds : List (ℕ × ℕ × ℕ × ℕ)) : ∀ (b : OrderBook),
    (∀ q ∈ b.bids, q.2 ≠ 0) → (∀ q ∈ b.asks, q.2 ≠ 0) →
    (∀ q ∈ (apply_deltas b ds).bids, q.2 ≠ 0) ∧
      (∀ q ∈ (apply_deltas b ds).asks, q.2 ≠ 0) := by
  induction ds with
  | nil => intro b hb ha; exact ⟨hb, ha⟩
  | cons d ds ih =>
    intro b hb ha
    rw [apply_deltas_cons]
    obtain ⟨hb2, ha2⟩ := apply_delta_zeroFree b d.1 d.2.1 d.2.2.1 d.2.2.2 hb ha
    exact ih _ hb2 ha2

theorem apply_deltas_strict (ds : List (ℕ × ℕ × ℕ × ℕ)) : ∀ (b : OrderBook),
    b.bids.Pairwise (fun a c => c.1 < a.1) →
    b.asks.Pairwise (fun a c => a.1 < c.1) →
    (apply_deltas b ds).bids.Pairwise (fun a c => c.1 < a.1) ∧
      (apply_deltas b ds).asks.Pairwise (fun a c => a.1 < c.1) := by
  induction ds with
  | nil => intro b hb ha; exact ⟨hb, ha⟩
  | cons d ds ih =>
    intro b hb ha
    rw [apply_deltas_cons]
    obtain ⟨hb2, ha2⟩ := apply_delta_strict b d.1 d.2.1 d.2.2.1 d.2.2.2 hb ha
    exact ih _ hb2 ha2

theorem process_snapshot_eq (b : OrderBook) (s : Snapshot) (b1 : OrderBook)
    (h : process_snapshot b s = some b1) :
    ∃ bl al, s.bids.mapM decode_level = some bl ∧
      s.asks.mapM decode_level = some al ∧
      b1 = { b with last_update_id := s.lastUpdateId,
                    bids := sort_bids (store_levels [] bl),
                    asks := sort_asks (store_levels [] al) } := by
  rw [process_snapshot] at h
  split at h
  · rename_i bl al heq1 heq2
    refine ⟨bl, al, heq1, heq2, ?_⟩
    exact (Option.some.inj h).symm
  · simp at h

theorem mem_mapM_decode (l : List (String × String)) : ∀ (out : List (ℕ × ℕ)),
    l.mapM decode_level = some out →
    ∀ q ∈ out, ∃ pair ∈ l, decode_level pair = some q := by
  induction l with
  | nil =>
    intro out h q hq
    rw [List.mapM_nil] at h
    have hout := Option.some.inj h
    subst hout
    simp at hq
  | cons a as ih =>
    intro out h q hq
    rw [List.mapM_cons] at h
    cases hfa : decode_level a with
    | none => rw [hfa] at h; simp at h
    | some b =>
      cases hml : as.mapM decode_level with
      | none => rw [hfa, hml] at h; simp at h
      | some bs =>
        rw [hfa, hml] at h
        simp at h
        subst h
        rcases List.mem_cons.mp hq with h2 | h2
        · exact ⟨a, List.mem_cons_self _ _, by rw [hfa, h2]⟩
        · rcases ih bs hml q h2 with ⟨pair, hpair, hdec⟩
          exact ⟨pair, List.mem_cons_of_mem _ hpair, hdec⟩

/-! ### Lemmas about the controller loop -/

theorem run_stream_not_running (st : ClientState) (ms : List (List ℕ))
    (h : st.running = false) : run_stream st ms = st := by
  cases ms with
  | nil => rfl
  | cons m ms => rw [run_stream, h]; simp

theorem process_delta_skip (st : ClientState) (m : List ℕ)
    (hm : m.length ≠ 26) : process_delta st m = st := by
  rw [process_delta, if_pos hm]

theorem process_delta_trigger (st : ClientState) (m : List ℕ)
    (hlen : m.length = 26) (htr : st.target_ordinal ≤ ordinalOf m) :
    process_delta st m =
      { st with
        book := apply_delta st.book (sideOf m) (ordinalOf m) (priceOf m) (qtyOf m),
        validations := st.validations + 1,
        running := false } := by
  rw [process_delta, if_neg (by omega), if_pos htr]

theorem process_delta_no_trigger (st : ClientState) (m : List ℕ)
    (hlen : m.length = 26) (htr : ¬ st.target_ordinal ≤ ordinalOf m) :
    process_delta st m =
      { st with
        book := apply_delta st.book (sideOf m) (ordinalOf m) (priceOf m) (qtyOf m) } := by
  rw [process_delta, if_neg (by omega), if_neg htr]

theorem apply_delta_last (b : OrderBook) (side ordinal price qty : ℕ) :
    (apply_delta b side ordinal price qty).last_update_id = ordinal := rfl

theorem run_stream_trigger (msgs : List (List ℕ)) : ∀ (st : ClientState),
    st.running = true →
    (∀ m ∈ msgs, m.length = 26) →
    ∀ m0, List.find? (fun msg => decide (st.target_ordinal ≤ ordinalOf msg)) msgs = some m0 →
      (run_stream st msgs).validations = st.validations + 1 ∧
      (run_stream st msgs).running = false ∧
      (run_stream st msgs).book.last_update_id = ordinalOf m0 := by
  induction msgs with
  | nil =>
    intro st _ _ m0 hf
    simp at hf
  | cons m ms ih =>
    intro st hrun hlen m0 hf
    rw [run_stream, hrun, if_pos rfl]
    by_cases htr : st.target_ordinal ≤ ordinalOf m
    · have hpm : decide (st.target_ordinal ≤ ordinalOf m) = true := by
        simpa using htr
      have hm0 : m0 = m := by
        rw [@List.find?_cons_of_pos _
          (fun msg => decide (st.target_ordinal ≤ ordinalOf msg)) m ms hpm] at hf
        exact (Option.some.inj hf).symm
      rw [hm0]
      rw [process_delta_trigger st m (hlen m (List.mem_cons_self _ _)) htr]
      rw [run_stream_not_running _ _ rfl]
      exact ⟨rfl, rfl, apply_delta_last _ _ _ _ _⟩
    · have hpm : ¬ decide (st.target_ordinal ≤ ordinalOf m) = true := by
        simpa using htr
      rw [@List.find?_cons_of_neg _
        (fun msg => decide (st.target_ordinal ≤ ordinalOf msg)) m ms hpm] at hf
      rw [process_delta_no_trigger st m (hlen m (List.mem_cons_self _ _)) htr]
      exact ih
        { st with book := (apply_delta st.book (sideOf m) (ordinalOf m)
            (priceOf m) (qtyOf m)) }
        hrun (fun m2 hm2 => hlen m2 (List.mem_cons_of_mem _ hm2)) m0 hf

theorem filter_key_not_mem (l : List (ℕ × ℕ)) (k : ℕ) :
    k ∉ (l.filter (fun p => p.1 != k)).map Prod.fst := by
  intro h
  rcases List.mem_map.mp h with ⟨q, hq, hqe⟩
  have h2 := List.of_mem_filter hq
  simp at h2
  exact h2 hqe

theorem filter_key_eq_self (l : List (ℕ × ℕ)) (k : ℕ)
    (h : k ∉ l.map Prod.fst) : l.filter (fun p => p.1 != k) = l := by
  apply List.filter_eq_self.mpr
  intro q hq
  simp only [bne_iff_ne, ne_eq, decide_eq_true_eq]
  intro hqk
  exact h (List.mem_map.mpr ⟨q, hq, hqk⟩)

theorem filter_key_length (l : List (ℕ × ℕ)) (k : ℕ)
    (hmem : k ∈ l.map Prod.fst) (hnd : (l.map Prod.fst).Nodup) :
    (l.filter (fun p => p.1 != k)).length + 1 = l.length := by
  induction l with
  | nil => simp at hmem
  | cons a l ih =>
    rw [List.map_cons, List.nodup_cons] at hnd
    by_cases hak : a.1 = k
    · rw [List.filter_cons]
      have hfalse : (a.1 != k) = false := by simp [hak]
      rw [hfalse]
      simp only [Bool.false_eq_true, if_false]
      have hfl : l.filter (fun p => p.1 != k) = l := by
        apply filter_key_eq_self
        rw [← hak]
        exact hnd.1
      rw [hfl, List.length_cons]
    · rw [List.filter_cons]
      have htrue : (a.1 != k) = true := by simp [hak]
      rw [htrue]
      simp only [if_true]
      rw [List.length_cons, List.length_cons]
      have hmem2 : k ∈ l.map Prod.fst := by
        rw [List.map_cons, List.mem_cons] at hmem
        rcases hmem with h | h
        · exact absurd h.symm hak
        · exact h
      have := ih hmem2 hnd.2
      omega

/-! ### The claims -/

/-- Claim C1, counterexample: a snapshot containing the zero-quantity level
`("10.0000000", "0.0000000")` leaves the pair `(100000000, 0)` stored in the
bid ledger — `_process_snapshot` assigns decoded levels directly into the
dict instead of going through `update_bid`, so zero-quantity snapshot
entries are stored, not omitted. -/
theorem snapshot_stores_zero_quantity :
    (process_snapshot ⟨100, [], [], 0⟩
        ⟨1, [("10.0000000", "0.0000000")], []⟩).map OrderBook.bids =
      some [(100000000, 0)] := by decide

/-- Claim C1, amended: `update_bid`/`update_ask` (the upsert path used for
deltas) never store a zero quantity, so ledgers holding no zero-quantity
entry keep that property across every sequence of deltas; the snapshot
load path, however, stores zero-quantity pairs verbatim (see the
counterexample). -/
theorem zero_free_invariant_under_deltas (b : OrderBook)
    (hb : ∀ q ∈ b.bids, q.2 ≠ 0) (ha : ∀ q ∈ b.asks, q.2 ≠ 0)
    (ds : List (ℕ × ℕ × ℕ × ℕ)) :
    (∀ q ∈ (apply_deltas b ds).bids, q.2 ≠ 0) ∧
      (∀ q ∈ (apply_deltas b ds).asks, q.2 ≠ 0) :=
  apply_deltas_zeroFree ds b hb ha

theorem zero_free_invariant_under_deltas_witness :
    (∀ q ∈ (⟨100, [(5, 2)], [], 0⟩ : OrderBook).bids, q.2 ≠ 0) ∧
      ((∀ q ∈ (apply_deltas ⟨100, [(5, 2)], [], 0⟩ [(1, 7, 5, 0)]).bids, q.2 ≠ 0) ∧
        (∀ q ∈ (apply_deltas ⟨100, [(5, 2)], [], 0⟩ [(1, 7, 5, 0)]).asks, q.2 ≠ 0)) :=
  ⟨by decide,
    zero_free_invariant_under_deltas ⟨100, [(5, 2)], [], 0⟩ (by decide) (by decide)
      [(1, 7, 5, 0)]⟩

/-- Claim C2, counterexample: `applyDelta` sets `lastSequence`
unconditionally, so a delta carrying a smaller sequence number decreases
it: from `last_update_id = 10`, a delta with ordinal 3 leaves 3. -/
theorem apply_delta_can_decrease_lastSequence :
    (apply_delta ⟨100, [], [], 10⟩ 0 3 5 5).last_update_id <
      (⟨100, [], [], 10⟩ : OrderBook).last_update_id := by decide

/-- Claim C2, amended: `applyDelta` sets `lastSequence` to exactly the
message's sequence number, so an operation leaves `lastSequence` greater
than or equal to its previous value precisely when the arriving sequence is
at least the current one (which holds when the stream delivers
non-decreasing sequences, as §4.3 of the specification assumes). -/
theorem apply_delta_lastSequence_characterization (b : OrderBook)
    (side ordinal price qty : ℕ) :
    (apply_delta b side ordinal price qty).last_update_id = ordinal ∧
      (b.last_update_id ≤ (apply_delta b side ordinal price qty).last_update_id ↔
        b.last_update_id ≤ ordinal) := by
  refine ⟨apply_delta_last b side ordinal price qty, ?_⟩
  rw [apply_delta_last]

/-- Claim C3, counterexample: the snapshot decode is
`int(float(s) * 10_000_000)`, which truncates the binary64 product toward
zero: the string `"0.0000021"` (exact value `21 / 10^7`) decodes to 20,
while `round(0.0000021 * 10^7) = 21`. -/
theorem py_decode_differs_from_round :
    parseDec ("0.0000021") = some (21, 10 ^ 7) ∧
      py_decode ("0.0000021") = some 20 ∧
      round ((21:ℚ) / 10 ^ 7 * 10 ^ 7) = 21 ∧ (20:ℕ) ≠ 21 := by
  have h21 : ((21:ℚ)) = ((21:ℕ):ℚ) := by norm_num
  refine ⟨by decide, by decide, ?_, by decide⟩
  rw [div_mul_cancel₀ _ (by norm_num : ((10:ℚ) ^ 7) ≠ 0), h21, round_natCast]
  norm_num

theorem decode_near_witness :
    parseDec ("1.0000000") = some (10000000, 10 ^ 7) ∧
      (py_decode ("1.0000000") = some (10 ^ 7 - 1) ∨
        py_decode ("1.0000000") = some (10 ^ 7)) :=
  ⟨by decide,
    decode_near ("1.0000000") 10000000 (10 ^ 7) (10 ^ 7) (by decide) (by decide)
      (by decide) (by decide)⟩

/-- Claim C4, counterexample: with a configured depth of 5 the snapshot
request still carries depth 100 — the URL in `_get_snapshot` hardcodes
`depth=100` and ignores the configured depth. -/
theorem snapshot_depth_ignores_config :
    snapshot_request_depth ⟨⟨5, [], [], 0⟩, 10000, true, 0⟩ ≠ 5 := by decide

/-- Claim C4, amended: the snapshot request always carries depth 100
regardless of the configured depth; the configured depth only truncates the
serialized output, which emits at most `depth` bid levels and at most
`depth` ask levels. -/
theorem depth_truncation_and_fixed_request (st : ClientState) (b : OrderBook) :
    snapshot_request_depth st = 100 ∧
      (to_json_bids b).length ≤ b.depth ∧ (to_json_asks b).length ≤ b.depth := by
  refine ⟨rfl, ?_, ?_⟩
  · rw [to_json_bids, List.length_map, List.length_take]
    exact min_le_left _ _
  · rw [to_json_asks, List.length_map, List.length_take]
    exact min_le_left _ _

/-- Claim C5: every state reachable by loading a snapshot and applying any
sequence of deltas has its bid ledger in strictly decreasing price order
and its ask ledger in strictly increasing price order. -/
theorem ordering_invariant_reachable (b0 : OrderBook) (s : Snapshot)
    (b1 : OrderBook) (hsnap : process_snapshot b0 s = some b1)
    (ds : List (ℕ × ℕ × ℕ × ℕ)) :
    (apply_deltas b1 ds).bids.Pairwise (fun a c => c.1 < a.1) ∧
      (apply_deltas b1 ds).asks.Pairwise (fun a c => a.1 < c.1) := by
  obtain ⟨bl, al, hbl, hal, hb1⟩ := process_snapshot_eq b0 s b1 hsnap
  subst hb1
  apply apply_deltas_strict
  · apply sorted_strict_bids
    · exact sort_bids_sorted _
    · have hnd := store_levels_nodup bl [] (by simp)
      exact ((sort_bids_perm _).map _).nodup_iff.mpr hnd
  · apply sorted_strict_asks
    · exact sort_asks_sorted _
    · have hnd := store_levels_nodup al [] (by simp)
      exact ((sort_asks_perm _).map _).nodup_iff.mpr hnd

theorem ordering_invariant_reachable_witness :
    process_snapshot ⟨100, [], [], 0⟩
        ⟨7, [("1.0000000", "1.0000000"), ("2.0000000", "1.0000000")],
          [("3.0000000", "5.0000000")]⟩ =
      some ⟨100, [(20000000, 10000000), (10000000, 10000000)],
        [(30000000, 50000000)], 7⟩ ∧
      ((apply_deltas ⟨100, [(20000000, 10000000), (10000000, 10000000)],
            [(30000000, 50000000)], 7⟩ [(1, 9, 15000000, 3)]).bids.Pairwise
          (fun a c => c.1 < a.1) ∧
        (apply_deltas ⟨100, [(20000000, 10000000), (10000000, 10000000)],
            [(30000000, 50000000)], 7⟩ [(1, 9, 15000000, 3)]).asks.Pairwise
          (fun a c => a.1 < c.1)) :=
  ⟨by decide,
    ordering_invariant_reachable ⟨100, [], [], 0⟩
      ⟨7, [("1.0000000", "1.0000000"), ("2.0000000", "1.0000000")],
        [("3.0000000", "5.0000000")]⟩
      ⟨100, [(20000000, 10000000), (10000000, 10000000)],
        [(30000000, 50000000)], 7⟩
      (by decide) [(1, 9, 15000000, 3)]⟩

/-- Claim C6: a zero-quantity update for a price present in the ledger
removes that level (its key disappears and the ledger shrinks by one), and
for an absent price it is a no-op leaving the book, and in particular its
size, unchanged.  Both the bid and the ask side are covered. -/
theorem zero_quantity_removal (b : OrderBook) (price : ℕ) :
    (price ∈ b.bids.map Prod.fst → (b.bids.map Prod.fst).Nodup →
      price ∉ (update_bid b price 0).bids.map Prod.fst ∧
        (update_bid b price 0).bids.length + 1 = b.bids.length) ∧
    (price ∉ b.bids.map Prod.fst →
      update_bid b price 0 = b ∧ get_size (update_bid b price 0) = get_size b) ∧
    (price ∈ b.asks.map Prod.fst → (b.asks.map Prod.fst).Nodup →
      price ∉ (update_ask b price 0).asks.map Prod.fst ∧
        (update_ask b price 0).asks.length + 1 = b.asks.length) ∧
    (price ∉ b.asks.map Prod.fst →
      update_ask b price 0 = b ∧ get_size (update_ask b price 0) = get_size b) := by
  have hb0 : (update_bid b price 0).bids = b.bids.filter (fun p => p.1 != price) := by
    rw [update_bid, if_pos rfl]
  have ha0 : (update_ask b price 0).asks = b.asks.filter (fun p => p.1 != price) := by
    rw [update_ask, if_pos rfl]
  refine ⟨?_, ?_, ?_, ?_⟩
  · intro hmem hnd
    rw [hb0]
    exact ⟨filter_key_not_mem _ _, filter_key_length _ _ hmem hnd⟩
  · intro hmem
    have heq : update_bid b price 0 = b := by
      rw [update_bid, if_pos rfl, filter_key_eq_self _ _ hmem]
    exact ⟨heq, by rw [heq]⟩
  · intro hmem hnd
    rw [ha0]
    exact ⟨filter_key_not_mem _ _, filter_key_length _ _ hmem hnd⟩
  · intro hmem
    have heq : update_ask b price 0 = b := by
      rw [update_ask, if_pos rfl, filter_key_eq_self _ _ hmem]
    exact ⟨heq, by rw [heq]⟩

theorem zero_quantity_removal_witness :
    (5 ∉ (update_bid ⟨100, [(5, 2)], [(9, 4)], 3⟩ 5 0).bids.map Prod.fst ∧
      (update_bid ⟨100, [(5, 2)], [(9, 4)], 3⟩ 5 0).bids.length + 1 =
        (⟨100, [(5, 2)], [(9, 4)], 3⟩ : OrderBook).bids.length) ∧
      update_ask ⟨100, [(5, 2)], [(9, 4)], 3⟩ 5 0 = ⟨100, [(5, 2)], [(9, 4)], 3⟩ :=
  ⟨(zero_quantity_removal ⟨100, [(5, 2)], [(9, 4)], 3⟩ 5).1 (by decide) (by decide),
    ((zero_quantity_removal ⟨100, [(5, 2)], [(9, 4)], 3⟩ 5).2.2.2 (by decide)).1⟩

/-- Claim C7: given well-formed frames with strictly increasing ordinals,
the first below the target and some frame at or above it, the read loop
validates exactly once, stops running, never reconnects, applies no further
delta, and its final sequence number is the ordinal of the first frame that
reached the target. -/
theorem termination_trigger_once (st : ClientState) (msgs : List (List ℕ))
    (hrun : st.running = true) (hval : st.validations = 0)
    (hlen : ∀ m ∈ msgs, m.length = 26)
    (hinc : msgs.Chain' (fun m1 m2 => ordinalOf m1 < ordinalOf m2))
    (hstart : ∀ m0 ∈ msgs.head?, ordinalOf m0 < st.target_ordinal)
    (hreach : ∃ m ∈ msgs, st.target_ordinal ≤ ordinalOf m) :
    (run_stream st msgs).validations = 1 ∧
      (run_stream st msgs).running = false ∧
      will_reconnect (run_stream st msgs) = false ∧
      (∀ more, run_stream (run_stream st msgs) more = run_stream st msgs) ∧
      ∃ m0, List.find? (fun msg => decide (st.target_ordinal ≤ ordinalOf msg))
          msgs = some m0 ∧
        (run_stream st msgs).book.last_update_id = ordinalOf m0 := by
  obtain ⟨m, hm, htr⟩ := hreach
  have hfind : (List.find? (fun msg => decide (st.target_ordinal ≤ ordinalOf msg))
      msgs).isSome := by
    rw [List.find?_isSome]
    exact ⟨m, hm, by simpa using htr⟩
  obtain ⟨m0, hf⟩ := Option.isSome_iff_exists.mp hfind
  obtain ⟨h1, h2, h3⟩ := run_stream_trigger msgs st hrun hlen m0 hf
  rw [hval] at h1
  refine ⟨h1, h2, ?_, ?_, m0, hf, h3⟩
  · rw [will_reconnect]; exact h2
  · intro more; exact run_stream_not_running _ _ h2

theorem termination_trigger_once_witness :
    (∃ m ∈ [(0 :: 1 :: 0 :: 0 :: 0 :: 0 :: 0 :: 0 :: 0 :: 1 ::
        List.replicate 16 0 : List ℕ),
      (0 :: 0 :: 0 :: 0 :: 0 :: 0 :: 0 :: 0 :: 0 :: 5 ::
        List.replicate 16 0 : List ℕ)], (3:ℕ) ≤ ordinalOf m) ∧
      ((run_stream ⟨⟨100, [], [], 0⟩, 3, true, 0⟩
          [(0 :: 1 :: 0 :: 0 :: 0 :: 0 :: 0 :: 0 :: 0 :: 1 ::
              List.replicate 16 0 : List ℕ),
            (0 :: 0 :: 0 :: 0 :: 0 :: 0 :: 0 :: 0 :: 0 :: 5 ::
              List.replicate 16 0 : List ℕ)]).validations = 1 ∧
        (run_stream ⟨⟨100, [], [], 0⟩, 3, true, 0⟩
          [(0 :: 1 :: 0 :: 0 :: 0 :: 0 :: 0 :: 0 :: 0 :: 1 ::
              List.replicate 16 0 : List ℕ),
            (0 :: 0 :: 0 :: 0 :: 0 :: 0 :: 0 :: 0 :: 0 :: 5 ::
              List.replicate 16 0 : List ℕ)]).running = false ∧
        will_reconnect (run_stream ⟨⟨100, [], [], 0⟩, 3, true, 0⟩
          [(0 :: 1 :: 0 :: 0 :: 0 :: 0 :: 0 :: 0 :: 0 :: 1 ::
              List.replicate 16 0 : List ℕ),
            (0 :: 0 :: 0 :: 0 :: 0 :: 0 :: 0 :: 0 :: 0 :: 5 ::
              List.replicate 16 0 : List ℕ)]) = false ∧
        (∀ more, run_stream (run_stream ⟨⟨100, [], [], 0⟩, 3, true, 0⟩
            [(0 :: 1 :: 0 :: 0 :: 0 :: 0 :: 0 :: 0 :: 0 :: 1 ::
                List.replicate 16 0 : List ℕ),
              (0 :: 0 :: 0 :: 0 :: 0 :: 0 :: 0 :: 0 :: 0 :: 5 ::
                List.replicate 16 0 : List ℕ)]) more =
          run_stream ⟨⟨100, [], [], 0⟩, 3, true, 0⟩
            [(0 :: 1 :: 0 :: 0 :: 0 :: 0 :: 0 :: 0 :: 0 :: 1 ::
                List.replicate 16 0 : List ℕ),
              (0 :: 0 :: 0 :: 0 :: 0 :: 0 :: 0 :: 0 :: 0 :: 5 ::
                List.replicate 16 0 : List ℕ)]) ∧
        ∃ m0, List.find? (fun msg => decide
            ((⟨⟨100, [], [], 0⟩, 3, true, 0⟩ : ClientState).target_ordinal ≤
              ordinalOf msg))
            [(0 :: 1 :: 0 :: 0 :: 0 :: 0 :: 0 :: 0 :: 0 :: 1 ::
                List.replicate 16 0 : List ℕ),
              (0 :: 0 :: 0 :: 0 :: 0 :: 0 :: 0 :: 0 :: 0 :: 5 ::
                List.replicate 16 0 : List ℕ)] = some m0 ∧
          (run_stream ⟨⟨100, [], [], 0⟩, 3, true, 0⟩
            [(0 :: 1 :: 0 :: 0 :: 0 :: 0 :: 0 :: 0 :: 0 :: 1 ::
                List.replicate 16 0 : List ℕ),
              (0 :: 0 :: 0 :: 0 :: 0 :: 0 :: 0 :: 0 :: 0 :: 5 ::
                List.replicate 16 0 : List ℕ)]).book.last_update_id =
            ordinalOf m0) :=
  ⟨by decide,
    termination_trigger_once ⟨⟨100, [], [], 0⟩, 3, true, 0⟩
      [(0 :: 1 :: 0 :: 0 :: 0 :: 0 :: 0 :: 0 :: 0 :: 1 ::
          List.replicate 16 0 : List ℕ),
        (0 :: 0 :: 0 :: 0 :: 0 :: 0 :: 0 :: 0 :: 0 :: 5 ::
          List.replicate 16 0 : List ℕ)]
      (by decide) (by decide) (by decide)
      (by rw [List.chain'_pair]; decide)
      (by decide) (by decide)⟩

/-- Claim C8, counterexample: the round-trip fails for large stored values:
`v = 5368709120000003` renders (via the binary64 quotient `v / 10^7`) as
`"536870912.0000004"`, which parses back to `5368709120000004 ≠ v`. -/
theorem format_round_trip_fails_large :
    round (format_decimal 5368709120000003 * 10 ^ 7) ≠
      (5368709120000003 : ℤ) := by
  rw [round_format_decimal]
  have h : rhe ((roundDouble 5368709120000003 (10 ^ 7)).1 * 10 ^ 7)
      ((roundDouble 5368709120000003 (10 ^ 7)).2) = 5368709120000004 := by decide
  rw [h]
  decide

theorem serialize_round_trip_witness :
    12345678 ≤ 5 * 10 ^ 15 ∧
      round (format_decimal 12345678 * 10 ^ 7) = (12345678 : ℤ) :=
  ⟨by norm_num, serialize_round_trip_aux 12345678 (by norm_num)⟩

/-- Claim C9: a frame whose length is not 26 bytes is discarded without
altering any state, and a malformed frame between two frames changes
nothing about how those two frames are processed. -/
theorem malformed_frame_discarded (st : ClientState) (m : List ℕ)
    (hm : m.length ≠ 26) :
    process_delta st m = st ∧
      ∀ (st2 : ClientState) (m1 m2 : List ℕ),
        run_stream st2 [m1, m, m2] = run_stream st2 [m1, m2] := by
  refine ⟨process_delta_skip st m hm, ?_⟩
  intro st2 m1 m2
  have hskip : ∀ st3 : ClientState, process_delta st3 m = st3 :=
    fun st3 => process_delta_skip st3 m hm
  simp only [run_stream, hskip]
  split_ifs <;> rfl

theorem malformed_frame_discarded_witness :
    ([(0:ℕ)].length ≠ 26) ∧
      (process_delta ⟨⟨100, [], [], 0⟩, 10, true, 0⟩ [0] =
          ⟨⟨100, [], [], 0⟩, 10, true, 0⟩ ∧
        ∀ (st2 : ClientState) (m1 m2 : List ℕ),
          run_stream st2 [m1, [0], m2] = run_stream st2 [m1, m2]) :=
  ⟨by decide,
    malformed_frame_discarded ⟨⟨100, [], [], 0⟩, 10, true, 0⟩ [0] (by decide)⟩

/-- Claim C10: a decoded 26-byte frame updates the bid ledger exactly when
its 2-byte side field equals 1; every other side value (2, 65535, ...) is
routed to the ask ledger, never rejected. -/
theorem side_field_routing (st : ClientState) (msg : List ℕ)
    (hlen : msg.length = 26) :
    (sideOf msg = 1 →
        (process_delta st msg).book.asks = st.book.asks ∧
        (process_delta st msg).book.bids =
          (update_bid st.book (priceOf msg) (qtyOf msg)).bids) ∧
    (sideOf msg ≠ 1 →
        (process_delta st msg).book.bids = st.book.bids ∧
        (process_delta st msg).book.asks =
          (update_ask st.book (priceOf msg) (qtyOf msg)).asks) := by
  have hbook : (process_delta st msg).book =
      apply_delta st.book (sideOf msg) (ordinalOf msg) (priceOf msg) (qtyOf msg) := by
    rw [process_delta, if_neg (by omega)]
    split_ifs <;> rfl
  rw [hbook]
  constructor
  · intro hside
    rw [apply_delta, if_pos hside]
    exact ⟨update_bid_asks _ _ _, rfl⟩
  · intro hside
    rw [apply_delta, if_neg hside]
    exact ⟨update_ask_bids _ _ _, rfl⟩

theorem side_field_routing_witness :
    ((0 :: 2 :: List.replicate 24 0 : List ℕ)).length = 26 ∧
      sideOf (0 :: 2 :: List.replicate 24 0) ≠ 1 ∧
      ((process_delta ⟨⟨100, [], [], 0⟩, 10, true, 0⟩
            (0 :: 2 :: List.replicate 24 0)).book.bids =
          (⟨⟨100, [], [], 0⟩, 10, true, 0⟩ : ClientState).book.bids ∧
        (process_delta ⟨⟨100, [], [], 0⟩, 10, true, 0⟩
            (0 :: 2 :: List.replicate 24 0)).book.asks =
          (update_ask (⟨⟨100, [], [], 0⟩, 10, true, 0⟩ : ClientState).book
            (priceOf (0 :: 2 :: List.replicate 24 0))
            (qtyOf (0 :: 2 :: List.replicate 24 0))).asks) :=
  ⟨by decide, by decide,
    (side_field_routing ⟨⟨100, [], [], 0⟩, 10, true, 0⟩
      (0 :: 2 :: List.replicate 24 0) (by decide)).2 (by decide)⟩

end OrderBookClient
